import Mathlib

/-!
Verification of the Doit CLI (src/main.rs): a shallow embedding of the
streaming NDJSON response decoder, the chat interaction loop, and the task
commands, together with theorems settling the specification claims.

Text is modelled as `List Char`; raw network chunks as `List Nat` (bytes).
Conventions from the source:
  * `send_chat_message` / `ask_once` keep a running `String` buffer, extract
    newline-terminated lines, skip blank lines, decode each line with
    `serde_json::from_str`, print/accumulate the fragment and stop on
    `done == true` (which breaks only the inner per-chunk loop);
  * raw chunks are decoded with `String::from_utf8_lossy`, replacement
    character U+FFFD for invalid sequences (maximal-subpart policy);
  * `str::trim` removes Unicode `White_Space` characters from both ends.
-/

/-- Unicode `White_Space` test, mirroring Rust `char::is_whitespace`. -/
def isRustWs (c : Char) : Bool :=
  (0x09 ≤ c.toNat && c.toNat ≤ 0x0D) || c.toNat == 0x20 || c.toNat == 0x85 ||
  c.toNat == 0xA0 || c.toNat == 0x1680 ||
  (0x2000 ≤ c.toNat && c.toNat ≤ 0x200A) || c.toNat == 0x2028 ||
  c.toNat == 0x2029 || c.toNat == 0x202F || c.toNat == 0x205F ||
  c.toNat == 0x3000

/-- Rust `str::trim`: drop `White_Space` characters from both ends. -/
def rustTrim (s : List Char) : List Char :=
  ((s.dropWhile isRustWs).reverse.dropWhile isRustWs).reverse

/-- `buffer.find('\n')` followed by the two slices `buffer[..pos]` and
`buffer[pos + 1..]`: the first newline-terminated line and the rest, when a
newline exists. -/
def splitNl : List Char → Option (List Char × List Char)
  | [] => none
  | c :: cs =>
    if c = '\n' then some ([], cs)
    else
      match splitNl cs with
      | none => none
      | some (l, r) => some (c :: l, r)

/-- All complete newline-terminated lines of a text, together with the
trailing remainder after the last newline. -/
def splitNlAll : List Char → List (List Char) × List Char
  | [] => ([], [])
  | c :: cs =>
    if c = '\n' then
      ([] :: (splitNlAll cs).1, (splitNlAll cs).2)
    else
      match (splitNlAll cs).1, (splitNlAll cs).2 with
      | [], r => ([], c :: r)
      | l :: ls, r => ((c :: l) :: ls, r)

/-- The complete lines of a text. -/
def linesOf (s : List Char) : List (List Char) := (splitNlAll s).1

/-- The trailing remainder of a text after its last newline. -/
def remOf (s : List Char) : List Char := (splitNlAll s).2

/-- Join lines back, newline-terminating each one. -/
def joinNl (ls : List (List Char)) : List Char := ls.flatMap (fun l => l ++ ['\n'])

/-- The Unicode replacement character U+FFFD. -/
def replChar : Char := Char.ofNat 0xFFFD

/-- UTF-8 continuation byte test. -/
def isCont (b : Nat) : Bool := 0x80 ≤ b && b < 0xC0

/-- Valid second byte for a three-byte sequence (excludes overlong forms and
surrogates, as UTF-8 validation does). -/
def utf8Valid3Second (b1 b2 : Nat) : Bool :=
  if b1 == 0xE0 then 0xA0 ≤ b2 && b2 < 0xC0
  else if b1 == 0xED then 0x80 ≤ b2 && b2 < 0xA0
  else isCont b2

/-- Valid second byte for a four-byte sequence (excludes overlong forms and
values beyond U+10FFFF). -/
def utf8Valid4Second (b1 b2 : Nat) : Bool :=
  if b1 == 0xF0 then 0x90 ≤ b2 && b2 < 0xC0
  else if b1 == 0xF4 then 0x80 ≤ b2 && b2 < 0x90
  else isCont b2

/-- Rust `String::from_utf8_lossy`: decode a byte sequence to text, replacing
each maximal invalid subpart with one U+FFFD replacement character. -/
def utf8Lossy : List Nat → List Char
  | [] => []
  | b1 :: r1 =>
    if b1 < 0x80 then Char.ofNat b1 :: utf8Lossy r1
    else if b1 < 0xC2 then replChar :: utf8Lossy r1
    else if b1 < 0xE0 then
      match r1 with
      | [] => [replChar]
      | b2 :: r2 =>
        if isCont b2 then
          Char.ofNat ((b1 - 0xC0) * 0x40 + (b2 - 0x80)) :: utf8Lossy r2
        else replChar :: utf8Lossy (b2 :: r2)
    else if b1 < 0xF0 then
      match r1 with
      | [] => [replChar]
      | b2 :: r2 =>
        if utf8Valid3Second b1 b2 then
          match r2 with
          | [] => [replChar]
          | b3 :: r3 =>
            if isCont b3 then
              Char.ofNat ((b1 - 0xE0) * 0x1000 + (b2 - 0x80) * 0x40 + (b3 - 0x80)) ::
                utf8Lossy r3
            else replChar :: utf8Lossy (b3 :: r3)
        else replChar :: utf8Lossy (b2 :: r2)
    else if b1 < 0xF5 then
      match r1 with
      | [] => [replChar]
      | b2 :: r2 =>
        if utf8Valid4Second b1 b2 then
          match r2 with
          | [] => [replChar]
          | b3 :: r3 =>
            if isCont b3 then
              match r3 with
              | [] => [replChar]
              | b4 :: r4 =>
                if isCont b4 then
                  Char.ofNat ((b1 - 0xF0) * 0x40000 + (b2 - 0x80) * 0x1000 +
                      (b3 - 0x80) * 0x40 + (b4 - 0x80)) :: utf8Lossy r4
                else replChar :: utf8Lossy (b4 :: r4)
            else replChar :: utf8Lossy (b3 :: r3)
        else replChar :: utf8Lossy (b2 :: r2)
    else replChar :: utf8Lossy r1

/-- UTF-8 encoding of one character. -/
def charUtf8 (c : Char) : List Nat :=
  let n := c.toNat
  if n < 0x80 then [n]
  else if n < 0x800 then [0xC0 + n / 0x40, 0x80 + n % 0x40]
  else if n < 0x10000 then
    [0xE0 + n / 0x1000, 0x80 + (n / 0x40) % 0x40, 0x80 + n % 0x40]
  else
    [0xF0 + n / 0x40000, 0x80 + (n / 0x1000) % 0x40, 0x80 + (n / 0x40) % 0x40,
      0x80 + n % 0x40]

/-- UTF-8 encoding of a string, for building concrete byte streams. -/
def strBytes (s : String) : List Nat := s.data.flatMap charUtf8

/-- The double-quote character. -/
def qMark : Char := Char.ofNat 34

/-- The backslash character. -/
def bSlash : Char := Char.ofNat 92

/-- The opening-brace character. -/
def lBrace : Char := Char.ofNat 123

/-- The closing-brace character. -/
def rBrace : Char := Char.ofNat 125

/-- JSON structural whitespace. -/
def isJsonWs (c : Char) : Bool := c == ' ' || c == '\t' || c == '\n' || c == '\r'

/-- Skip JSON structural whitespace. -/
def skipWs (s : List Char) : List Char := s.dropWhile isJsonWs

/-- ASCII digit test. -/
def isDigit (c : Char) : Bool := 48 ≤ c.toNat && c.toNat ≤ 57

/-- Hexadecimal digit value. -/
def hexVal (c : Char) : Option Nat :=
  if 48 ≤ c.toNat && c.toNat ≤ 57 then some (c.toNat - 48)
  else if 97 ≤ c.toNat && c.toNat ≤ 102 then some (c.toNat - 87)
  else if 65 ≤ c.toNat && c.toNat ≤ 70 then some (c.toNat - 55)
  else none

/-- JSON value syntax tree, as produced by the `serde_json` parser. Numbers
keep their lexeme: the record fields extracted below are strings and
booleans, for which a number is a type error regardless of its value. -/
inductive JVal where
  | jnull
  | jbool (b : Bool)
  | jnum (lex : List Char)
  | jstr (s : List Char)
  | jarr (xs : List JVal)
  | jobj (fields : List (List Char × JVal))

/-- JSON string body parser (after the opening quote): handles the JSON
escapes, rejects unescaped control characters, returns the decoded content
and the input following the closing quote. -/
def parseStr : List Char → Option (List Char × List Char)
  | [] => none
  | c :: cs =>
    if c = qMark then some ([], cs)
    else if c = bSlash then
      match cs with
      | [] => none
      | e :: cs2 =>
        if e = qMark then (parseStr cs2).map (fun p => (qMark :: p.1, p.2))
        else if e = bSlash then (parseStr cs2).map (fun p => (bSlash :: p.1, p.2))
        else if e = '/' then (parseStr cs2).map (fun p => ('/' :: p.1, p.2))
        else if e = 'b' then (parseStr cs2).map (fun p => (Char.ofNat 8 :: p.1, p.2))
        else if e = 'f' then (parseStr cs2).map (fun p => (Char.ofNat 12 :: p.1, p.2))
        else if e = 'n' then (parseStr cs2).map (fun p => ('\n' :: p.1, p.2))
        else if e = 'r' then (parseStr cs2).map (fun p => ('\r' :: p.1, p.2))
        else if e = 't' then (parseStr cs2).map (fun p => ('\t' :: p.1, p.2))
        else if e = 'u' then
          match cs2 with
          | h1 :: h2 :: h3 :: h4 :: cs3 =>
            match hexVal h1, hexVal h2, hexVal h3, hexVal h4 with
            | some v1, some v2, some v3, some v4 =>
              let u := v1 * 0x1000 + v2 * 0x100 + v3 * 0x10 + v4
              if 0xD800 ≤ u ∧ u < 0xDC00 then
                match cs3 with
                | e2 :: u2 :: k1 :: k2 :: k3 :: k4 :: cs4 =>
                  if e2 = bSlash ∧ u2 = 'u' then
                    match hexVal k1, hexVal k2, hexVal k3, hexVal k4 with
                    | some w1, some w2, some w3, some w4 =>
                      let w := w1 * 0x1000 + w2 * 0x100 + w3 * 0x10 + w4
                      if 0xDC00 ≤ w ∧ w < 0xE000 then
                        (parseStr cs4).map (fun p =>
                          (Char.ofNat (0x10000 + (u - 0xD800) * 0x400 + (w - 0xDC00)) :: p.1,
                            p.2))
                      else none
                    | _, _, _, _ => none
                  else none
                | _ => none
              else if 0xDC00 ≤ u ∧ u < 0xE000 then none
              else (parseStr cs3).map (fun p => (Char.ofNat u :: p.1, p.2))
            | _, _, _, _ => none
          | _ => none
        else none
    else if c.toNat < 0x20 then none
    else (parseStr cs).map (fun p => (c :: p.1, p.2))

/-- Fraction part of a JSON number (possibly empty). -/
def parseFracPart : List Char → Option (List Char × List Char)
  | [] => some ([], [])
  | c :: cs =>
    if c = '.' then
      match cs.takeWhile isDigit with
      | [] => none
      | ds => some (c :: ds, cs.dropWhile isDigit)
    else some ([], c :: cs)

/-- Exponent part of a JSON number (possibly empty). -/
def parseExpPart : List Char → Option (List Char × List Char)
  | [] => some ([], [])
  | c :: cs =>
    if c = 'e' ∨ c = 'E' then
      let (sgn, cs2) :=
        match cs with
        | d :: ds => if d = '+' ∨ d = '-' then ([d], ds) else (([] : List Char), cs)
        | [] => ([], [])
      match cs2.takeWhile isDigit with
      | [] => none
      | ds => some (c :: (sgn ++ ds), cs2.dropWhile isDigit)
    else some ([], c :: cs)

/-- JSON number lexer: optional minus, integer part without leading zeros,
optional fraction and exponent. -/
def parseNum (s : List Char) : Option (List Char × List Char) :=
  let (sgn, s1) :=
    match s with
    | c :: cs => if c = '-' then ([c], cs) else (([] : List Char), s)
    | [] => ([], [])
  match s1 with
  | [] => none
  | c :: cs =>
    (if c = '0' then some ([c], cs)
     else if isDigit c then some (c :: cs.takeWhile isDigit, cs.dropWhile isDigit)
     else none).bind fun p1 =>
      (parseFracPart p1.2).bind fun p2 =>
        (parseExpPart p2.2).bind fun p3 =>
          some (sgn ++ p1.1 ++ p2.1 ++ p3.1, p3.2)

/-- Recursive-descent parser state: a plain value, the tail of an array, or
the tail of an object. -/
inductive PMode where
  | pval
  | parrTail (acc : List JVal)
  | pobjTail (acc : List (List Char × JVal))

/-- The JSON grammar, fuelled recursive descent (fuel `2 * length + 2`
always suffices; running out of fuel only makes the parse fail, which is the
conservative direction). -/
def parseCore : Nat → PMode → List Char → Option (JVal × List Char)
  | 0, _, _ => none
  | fuel + 1, PMode.pval, s =>
    match skipWs s with
    | [] => none
    | c :: cs =>
      if c = lBrace then
        match skipWs cs with
        | d :: ds => if d = rBrace then some (.jobj [], ds) else parseCore fuel (.pobjTail []) cs
        | [] => none
      else if c = '[' then
        match skipWs cs with
        | d :: ds => if d = ']' then some (.jarr [], ds) else parseCore fuel (.parrTail []) cs
        | [] => none
      else if c = qMark then
        (parseStr cs).map (fun p => (.jstr p.1, p.2))
      else if c = 't' then
        match cs with
        | 'r' :: 'u' :: 'e' :: r => some (.jbool true, r)
        | _ => none
      else if c = 'f' then
        match cs with
        | 'a' :: 'l' :: 's' :: 'e' :: r => some (.jbool false, r)
        | _ => none
      else if c = 'n' then
        match cs with
        | 'u' :: 'l' :: 'l' :: r => some (.jnull, r)
        | _ => none
      else if c = '-' ∨ isDigit c then
        (parseNum (c :: cs)).map (fun p => (.jnum p.1, p.2))
      else none
  | fuel + 1, PMode.pobjTail acc, s =>
    match skipWs s with
    | c :: cs =>
      if c = qMark then
        match parseStr cs with
        | none => none
        | some (k, r1) =>
          match skipWs r1 with
          | d :: r2 =>
            if d = ':' then
              match parseCore fuel .pval r2 with
              | none => none
              | some (v, r3) =>
                match skipWs r3 with
                | e :: r4 =>
                  if e = ',' then parseCore fuel (.pobjTail (acc ++ [(k, v)])) r4
                  else if e = rBrace then some (.jobj (acc ++ [(k, v)]), r4)
                  else none
                | [] => none
            else none
          | [] => none
      else none
    | [] => none
  | fuel + 1, PMode.parrTail acc, s =>
    match parseCore fuel .pval s with
    | none => none
    | some (v, r1) =>
      match skipWs r1 with
      | c :: r2 =>
        if c = ',' then parseCore fuel (.parrTail (acc ++ [v])) r2
        else if c = ']' then some (.jarr (acc ++ [v]), r2)
        else none
      | [] => none

/-- `serde_json::from_str` value stage: parse one JSON value and require
that only whitespace follows it. -/
def jsonDecodeValue (l : List Char) : Option JVal :=
  match parseCore (2 * l.length + 2) PMode.pval l with
  | some (v, rest) => if (skipWs rest).isEmpty then some v else none
  | none => none

/-- `struct Message { role: String, content: String }`. -/
structure Message where
  role : List Char
  content : List Char
deriving DecidableEq

/-- `struct ChatResponse { message: Message, done: bool }`. -/
structure ChatResponse where
  message : Message
  done : Bool
deriving DecidableEq

/-- `struct GenerateResponse { response: String, done: bool }`. -/
structure GenerateResponse where
  response : List Char
  done : Bool
deriving DecidableEq

/-- Derived `Deserialize` for `Message`: visit the object entries in order,
filling the `role` and `content` slots; a duplicate known field or a type
mismatch is an error, unknown fields are ignored, and a missing field at the
end is an error. -/
def msgFieldsGo : List (List Char × JVal) → Option (List Char) → Option (List Char) →
    Option Message
  | [], some r, some c => some ⟨r, c⟩
  | [], some _, none => none
  | [], none, _ => none
  | (k, v) :: fs, r, c =>
    if k = "role".data then
      match r, v with
      | none, JVal.jstr s => msgFieldsGo fs (some s) c
      | _, _ => none
    else if k = "content".data then
      match c, v with
      | none, JVal.jstr s => msgFieldsGo fs r (some s)
      | _, _ => none
    else msgFieldsGo fs r c

/-- Deserialize a `Message` from a JSON value. -/
def jvalToMessage : JVal → Option Message
  | JVal.jobj fs => msgFieldsGo fs none none
  | _ => none

/-- Derived `Deserialize` for `ChatResponse` (fields `message`, `done`). -/
def chatFieldsGo : List (List Char × JVal) → Option Message → Option Bool →
    Option ChatResponse
  | [], some m, some d => some ⟨m, d⟩
  | [], some _, none => none
  | [], none, _ => none
  | (k, v) :: fs, m, d =>
    if k = "message".data then
      match m with
      | none =>
        match jvalToMessage v with
        | some msg => chatFieldsGo fs (some msg) d
        | none => none
      | some _ => none
    else if k = "done".data then
      match d, v with
      | none, JVal.jbool b => chatFieldsGo fs m (some b)
      | _, _ => none
    else chatFieldsGo fs m d

/-- Derived `Deserialize` for `GenerateResponse` (fields `response`, `done`). -/
def genFieldsGo : List (List Char × JVal) → Option (List Char) → Option Bool →
    Option GenerateResponse
  | [], some r, some d => some ⟨r, d⟩
  | [], some _, none => none
  | [], none, _ => none
  | (k, v) :: fs, r, d =>
    if k = "response".data then
      match r, v with
      | none, JVal.jstr s => genFieldsGo fs (some s) d
      | _, _ => none
    else if k = "done".data then
      match d, v with
      | none, JVal.jbool b => genFieldsGo fs r (some b)
      | _, _ => none
    else genFieldsGo fs r d

/-- `serde_json::from_str::<ChatResponse>` on one line. -/
def jsonDecodeChat (l : List Char) : Option ChatResponse :=
  match jsonDecodeValue l with
  | some (JVal.jobj fs) => chatFieldsGo fs none none
  | _ => none

/-- `serde_json::from_str::<GenerateResponse>` on one line. -/
def jsonDecodeGen (l : List Char) : Option GenerateResponse :=
  match jsonDecodeValue l with
  | some (JVal.jobj fs) => genFieldsGo fs none none
  | _ => none

/-- The per-line behaviour shared by the two streaming endpoints: how a line
is decoded (`serde_json::from_str`), which field is printed and accumulated,
and which field signals completion. -/
structure Codec (α : Type) where
  dec : List Char → Option α
  cont : α → List Char
  fin : α → Bool

/-- The loop state of `send_chat_message` / `ask_once`: the records decoded
so far (in order), the printed-and-accumulated text (`full_response`), and
the pending line buffer. -/
structure StreamAcc (α : Type) where
  recs : List α
  out : List Char
  buf : List Char
deriving DecidableEq

/-- The codec of `send_chat_message`: decode `ChatResponse`, print and
accumulate `message.content`, stop on `done`. -/
def chatCodec : Codec ChatResponse :=
  ⟨jsonDecodeChat, fun r => r.message.content, fun r => r.done⟩

/-- The codec of `ask_once`: decode `GenerateResponse`, print `response`,
stop on `done`. -/
def genCodec : Codec GenerateResponse :=
  ⟨jsonDecodeGen, fun r => r.response, fun r => r.done⟩

/-- The inner `while let Some(newline_pos) = buffer.find('\n')` loop, with a
fuel parameter for structural recursion (`buf.length` fuel always suffices
because each iteration removes the extracted line and its newline). On a
decoded record with the final flag set the loop breaks, leaving the rest of
the buffer unprocessed. -/
def procF (K : Codec α) : Nat → List α → List Char → List Char → StreamAcc α
  | 0, recs, out, buf => ⟨recs, out, buf⟩
  | fuel + 1, recs, out, buf =>
    match splitNl buf with
    | none => ⟨recs, out, buf⟩
    | some (line, rest) =>
      if (rustTrim line).isEmpty then procF K fuel recs out rest
      else
        match K.dec line with
        | none => procF K fuel recs out rest
        | some r =>
          if K.fin r then ⟨recs ++ [r], out ++ K.cont r, rest⟩
          else procF K fuel (recs ++ [r]) (out ++ K.cont r) rest

/-- The inner line-processing loop at its natural fuel. -/
def proc (K : Codec α) (recs : List α) (out buf : List Char) : StreamAcc α :=
  procF K buf.length recs out buf

/-- One outer-loop iteration: lossily decoded chunk text is appended to the
buffer, then the inner loop runs. -/
def feed (K : Codec α) (st : StreamAcc α) (text : List Char) : StreamAcc α :=
  proc K st.recs st.out (st.buf ++ text)

/-- The outer `while let Some(chunk_result) = stream.next().await` loop over
the already-decoded chunk texts. -/
def runChunks (K : Codec α) (chunks : List (List Char)) : StreamAcc α :=
  chunks.foldl (feed K) ⟨[], [], []⟩

/-- The full byte-level loop: each raw chunk is decoded with
`String::from_utf8_lossy` as it arrives and fed to the line loop. -/
def runBytes (K : Codec α) (chunks : List (List Nat)) : StreamAcc α :=
  runChunks K (chunks.map utf8Lossy)

/-- `send_chat_message` over the byte chunks delivered by the transport:
returns the assistant `Message` built from the accumulated `full_response`. -/
def sendChatMessage (chunks : List (List Nat)) : Message :=
  ⟨"assistant".data, (runBytes chatCodec chunks).out⟩

/-- A line on which the loop would stop: nonblank, decodes, and the decoded
record has its final flag set. -/
def isDoneLine (K : Codec α) (l : List Char) : Bool :=
  if (rustTrim l).isEmpty then false
  else
    match K.dec l with
    | some r => K.fin r
    | none => false

/-- The inner loop viewed on the line structure of the buffer: process the
complete lines in order; on a final record stop, the unprocessed lines and
the trailing remainder staying in the buffer. -/
def linesProc (K : Codec α) : List α → List Char → List (List Char) → List Char → StreamAcc α
  | recs, out, [], rem => ⟨recs, out, rem⟩
  | recs, out, l :: ls, rem =>
    if (rustTrim l).isEmpty then linesProc K recs out ls rem
    else
      match K.dec l with
      | none => linesProc K recs out ls rem
      | some r =>
        if K.fin r then ⟨recs ++ [r], out ++ K.cont r, joinNl ls ++ rem⟩
        else linesProc K (recs ++ [r]) (out ++ K.cont r) ls rem

/-- Well-formed NDJSON stream for a codec, per the wire protocol: every
record line is newline-terminated (no trailing remainder) and no line before
the last is a final record (`done: true` arrives only on the final line). -/
def streamWF (K : Codec α) (s : List Char) : Bool :=
  (remOf s).isEmpty && (linesOf s).dropLast.all (fun l => ! isDoneLine K l)

/-- Counterexample bytes, prefix of the record line up to an open string. -/
def cxPre : List Nat := strBytes "\x7b\"message\":\x7b\"role\":\"a\",\"content\":\""

/-- Counterexample bytes, rest of the record line after the split character. -/
def cxPost : List Nat := strBytes "\"\x7d,\"done\":true\x7d\n"

/-- First chunk of the split delivery: it ends with the first byte `0xC3` of
the two-byte UTF-8 encoding of U+00E9. -/
def cxB1 : List Nat := cxPre ++ [0xC3]

/-- Second chunk of the split delivery: it starts with the continuation byte
`0xA9` of that same character. -/
def cxB2 : List Nat := 0xA9 :: cxPost

/-- The whole well-formed NDJSON byte sequence: one newline-terminated chat
record whose content is the single character U+00E9. -/
def cxB : List Nat := cxPre ++ [0xC3, 0xA9] ++ cxPost

/-- A two-record chat stream cut in the middle of the JSON token `"done"`. -/
def wChatChunk1 : List Char :=
  "\x7b\"message\":\x7b\"role\":\"a\",\"content\":\"Hel\"\x7d,\"do".data

/-- The rest of that chat stream: the tail of the cut record and a final
record. -/
def wChatChunk2 : List Char :=
  "ne\":false\x7d\n\x7b\"message\":\x7b\"role\":\"a\",\"content\":\"lo\"\x7d,\"done\":true\x7d\n".data

/-- A generate stream cut in the middle of the field name `"response"`. -/
def wGenChunk1 : List Char := "\x7b\"respon".data

/-- The rest of that generate stream. -/
def wGenChunk2 : List Char := "se\":\"Hi\",\"done\":true\x7d\n".data

/-- The `Message` value returned by `send_chat_message`, with the response
body given directly as chunk texts. -/
def sendChatChars (chunks : List (List Char)) : Message :=
  ⟨"assistant".data, (runChunks chatCodec chunks).out⟩

/-- A non-final chat record line carrying `"Hel"`. -/
def w2Line1 : List Char :=
  "\x7b\"message\":\x7b\"role\":\"assistant\",\"content\":\"Hel\"\x7d,\"done\":false\x7d".data

/-- A final chat record line carrying `"lo"` and `done: true`. -/
def w2Line2 : List Char :=
  "\x7b\"message\":\x7b\"role\":\"assistant\",\"content\":\"lo\"\x7d,\"done\":true\x7d".data

/-- The decoded final record of `w2Line2`. -/
def w2Rec : ChatResponse := ⟨⟨"assistant".data, "lo".data⟩, true⟩

/-- A syntactically invalid line. -/
def w4Bad : List Char := "\x7b\"message\": nope".data

/-- The decoded first record of `w2Line1`. -/
def w4Rec1 : ChatResponse := ⟨⟨"assistant".data, "Hel".data⟩, false⟩

/-- A complete one-record byte stream. -/
def w6Chunk : List Nat :=
  strBytes "\x7b\"message\":\x7b\"role\":\"a\",\"content\":\"Hi\"\x7d,\"done\":true\x7d\n"

/-- An unterminated trailing fragment. -/
def w6Tail : List Nat := strBytes "\x7b\"messa"

/-- ASCII lowercasing of one character, as in `eq_ignore_ascii_case`. -/
def toAsciiLower (c : Char) : Char :=
  if 65 ≤ c.toNat ∧ c.toNat ≤ 90 then Char.ofNat (c.toNat + 32) else c

/-- Rust `str::eq_ignore_ascii_case`. -/
def eqIgnoreAsciiCase (a b : List Char) : Bool :=
  a.map toAsciiLower == b.map toAsciiLower

/-- The exit test of the chat loop:
`user_input.eq_ignore_ascii_case("exit") || user_input.eq_ignore_ascii_case("quit")`. -/
def isExitInput (t : List Char) : Bool :=
  eqIgnoreAsciiCase t "exit".data || eqIgnoreAsciiCase t "quit".data

/-- The fixed prefix of the system message content. -/
def systemHeader : List Char :=
  "You are a helpful assistant. Here are the user's tasks:\n".data

/-- The system message seeded at session start, embedding the task list. -/
def systemMsg (tasksJson : List Char) : Message := ⟨"system".data, systemHeader ++ tasksJson⟩

/-- A user message. -/
def userMsg (content : List Char) : Message := ⟨"user".data, content⟩

/-- An assistant message. -/
def assistantMsg (content : List Char) : Message := ⟨"assistant".data, content⟩

/-- The interactive loop of `ask_chat`, driven by the finite list of lines
the user will type. `reply` abstracts a successful `send_chat_message`
exchange: it maps the transmitted history to the accumulated assistant
content (the returned message always has role `assistant`). Returns the
final conversation history and the list of request payloads sent (each one
the full history at the time of the call). -/
def chatLoop (reply : List Message → List Char) :
    List Message → List (List Char) → List Message × List (List Message)
  | msgs, [] => (msgs, [])
  | msgs, inp :: rest =>
    if isExitInput (rustTrim inp) then (msgs, [])
    else if (rustTrim inp).isEmpty then chatLoop reply msgs rest
    else
      let msgs1 := msgs ++ [userMsg (rustTrim inp)]
      let msgs2 := msgs1 ++ [assistantMsg (reply msgs1)]
      let res := chatLoop reply msgs2 rest
      (res.1, msgs1 :: res.2)

/-- `ask_chat`: seed the history with the system message and the initial
prompt, run the first exchange, then enter the loop. -/
def askChat (initialPrompt tasksJson : List Char) (inputs : List (List Char))
    (reply : List Message → List Char) : List Message × List (List Message) :=
  let m0 := [systemMsg tasksJson, userMsg initialPrompt]
  let m1 := m0 ++ [assistantMsg (reply m0)]
  let res := chatLoop reply m1 inputs
  (res.1, m0 :: res.2)

/-- The trimmed inputs that become user turns: blank lines are skipped and
everything from the first exit keyword on is dropped. -/
def turnInputs : List (List Char) → List (List Char)
  | [] => []
  | inp :: rest =>
    if isExitInput (rustTrim inp) then []
    else if (rustTrim inp).isEmpty then turnInputs rest
    else rustTrim inp :: turnInputs rest

/-- One user/assistant exchange as it appears in the history. -/
def turnPair (p : List Char × List Char) : List Message :=
  [userMsg p.1, assistantMsg p.2]

/-- Outcome of the `Ask` branch of `main` before any network activity:
the lines printed, the arguments handed to `ask_ai` (`none` when the branch
returns early), and whether the early path returned `Ok(())`. -/
structure AskDispatch where
  printed : List (List Char)
  dispatched : Option (List Char × List Char × Bool)
  earlyOkReturn : Bool
deriving DecidableEq

/-- The rejection message printed for a blank question. -/
def askErrorLine : List Char := "Error: Please provide a question".data

/-- The `Commands::Ask` branch of `main`: reject a blank prompt before
loading tasks or calling `ask_ai`, otherwise dispatch. -/
def askCommand (prompt tasksJson : List Char) (chat : Bool) : AskDispatch :=
  if (rustTrim prompt).isEmpty then ⟨[askErrorLine], none, true⟩
  else ⟨[], some (prompt, tasksJson, chat), false⟩

/-- `struct Task { id: u8, description: String, completed: bool }`. -/
structure TodoTask where
  id : Nat
  description : List Char
  completed : Bool
deriving DecidableEq

/-- Rust `Iterator::max` on the ids. -/
def iterMax : List Nat → Option Nat
  | [] => none
  | x :: xs =>
    some (match iterMax xs with
      | none => x
      | some m => max x m)

/-- `get_next_id`: highest existing id (0 when the list is empty) plus one,
in `u8` arithmetic (modelled as wrapping modulo 256). -/
def get_next_id (tasks : List TodoTask) : Nat :=
  ((iterMax (tasks.map (fun t => t.id))).getD 0 + 1) % 256

/-- The `Commands::Add` branch of `main`: the new task takes the next id and
is pushed at the end, not completed. -/
def addTask (tasks : List TodoTask) (descr : List Char) : List TodoTask :=
  tasks ++ [⟨get_next_id tasks, descr, false⟩]

/-- A demonstration task list with ids below the bound. -/
def w9Tasks : List TodoTask := [⟨1, "a".data, false⟩, ⟨3, "b".data, true⟩]

/-- A task list whose id space is exhausted. -/
def w9Full : List TodoTask := [⟨255, "c".data, false⟩]

/-- The `Commands::Remove` branch of `main`: `retain` keeps the tasks whose
id differs; the file is rewritten (`save_tasks`) exactly when the retained
list is strictly shorter. Returns the in-memory list and whether the file
was rewritten. -/
def removeTask (tasks : List TodoTask) (targetId : Nat) : List TodoTask × Bool :=
  let kept := tasks.filter (fun t => t.id != targetId)
  (kept, decide (kept.length < tasks.length))

theorem splitNl_rest_length {s l r : List Char} (h : splitNl s = some (l, r)) :
    r.length < s.length := by
  induction s generalizing l r with
  | nil => simp [splitNl] at h
  | cons c cs ih =>
    by_cases hc : c = '\n'
    · rw [splitNl, if_pos hc] at h
      simp only [Option.some.injEq, Prod.mk.injEq] at h
      obtain ⟨-, rfl⟩ := h
      simp only [List.length_cons]
      omega
    · rw [splitNl, if_neg hc] at h
      cases hsp : splitNl cs with
      | none => rw [hsp] at h; simp at h
      | some p =>
        obtain ⟨l', r'⟩ := p
        rw [hsp] at h
        simp only [Option.some.injEq, Prod.mk.injEq] at h
        obtain ⟨-, rfl⟩ := h
        have := ih hsp
        simp only [List.length_cons]
        omega

theorem splitNl_eq_none_iff {s : List Char} : splitNl s = none ↔ '\n' ∉ s := by
  induction s with
  | nil => simp [splitNl]
  | cons c cs ih =>
    rw [splitNl, List.mem_cons]
    by_cases hc : c = '\n'
    · subst hc; simp
    · rw [if_neg hc]
      cases hsp : splitNl cs with
      | none =>
        have hmem : '\n' ∉ cs := ih.mp hsp
        have hne : ¬ ('\n' = c) := fun h => hc h.symm
        simp [hmem, hne]
      | some p =>
        obtain ⟨l, r⟩ := p
        have hmem : '\n' ∈ cs := by
          by_contra hmem
          rw [ih.mpr hmem] at hsp
          exact absurd hsp (by simp)
        simp [hmem]

/-- `splitNlAll` computed through the first newline split. -/
theorem splitNlAll_spec (s : List Char) :
    (splitNl s = none → splitNlAll s = ([], s)) ∧
    (∀ l rest, splitNl s = some (l, rest) →
      splitNlAll s = (l :: (splitNlAll rest).1, (splitNlAll rest).2)) := by
  induction s with
  | nil => exact ⟨fun _ => rfl, fun l rest h => by simp [splitNl] at h⟩
  | cons c cs ih =>
    by_cases hc : c = '\n'
    · subst hc
      refine ⟨fun h => by simp [splitNl] at h, fun l rest h => ?_⟩
      rw [splitNl, if_pos rfl] at h
      simp only [Option.some.injEq, Prod.mk.injEq] at h
      obtain ⟨rfl, rfl⟩ := h
      simp [splitNlAll]
    · constructor
      · intro h
        rw [splitNl, if_neg hc] at h
        cases hsp : splitNl cs with
        | some p => obtain ⟨l, r⟩ := p; rw [hsp] at h; simp at h
        | none =>
          have hall := ih.1 hsp
          simp [splitNlAll, if_neg hc, hall]
      · intro l rest h
        rw [splitNl, if_neg hc] at h
        cases hsp : splitNl cs with
        | none => rw [hsp] at h; simp at h
        | some p =>
          obtain ⟨l', r'⟩ := p
          rw [hsp] at h
          simp only [Option.some.injEq, Prod.mk.injEq] at h
          obtain ⟨rfl, rfl⟩ := h
          have hall := ih.2 l' r' hsp
          simp [splitNlAll, if_neg hc, hall]

theorem splitNlAll_of_none {s : List Char} (h : splitNl s = none) :
    splitNlAll s = ([], s) := (splitNlAll_spec s).1 h

theorem splitNlAll_of_some {s l rest : List Char} (h : splitNl s = some (l, rest)) :
    splitNlAll s = (l :: (splitNlAll rest).1, (splitNlAll rest).2) :=
  (splitNlAll_spec s).2 l rest h

theorem joinNl_linesOf_append_remOf (s : List Char) :
    joinNl (linesOf s) ++ remOf s = s := by
  induction s with
  | nil => rfl
  | cons c cs ih =>
    unfold linesOf remOf at *
    by_cases hc : c = '\n'
    · subst hc
      simp [splitNlAll, joinNl, List.flatMap_cons] at ih ⊢
      exact ih
    · simp only [splitNlAll, if_neg hc]
      cases hclines : (splitNlAll cs).1 with
      | nil =>
        rw [hclines] at ih
        simp [joinNl] at ih ⊢
        exact ih
      | cons l ls =>
        rw [hclines] at ih
        simp [joinNl, List.flatMap_cons] at ih ⊢
        exact ih

theorem nl_not_mem_remOf (s : List Char) : '\n' ∉ remOf s := by
  induction s with
  | nil => simp [remOf, splitNlAll]
  | cons c cs ih =>
    unfold remOf at *
    by_cases hc : c = '\n'
    · subst hc; simpa [splitNlAll] using ih
    · simp only [splitNlAll, if_neg hc]
      cases hclines : (splitNlAll cs).1 with
      | nil =>
        rw [hclines] at *
        simp only [List.mem_cons, not_or]
        exact ⟨fun h => hc h.symm, ih⟩
      | cons l ls => rw [hclines] at *; exact ih

theorem linesOf_eq_nil_iff {s : List Char} : linesOf s = [] ↔ '\n' ∉ s := by
  constructor
  · intro h
    rw [← splitNl_eq_none_iff]
    cases hsp : splitNl s with
    | none => rfl
    | some p =>
      obtain ⟨l, r⟩ := p
      have := splitNlAll_of_some hsp
      unfold linesOf at h
      rw [this] at h
      simp at h
  · intro h
    have := splitNlAll_of_none (splitNl_eq_none_iff.mpr h)
    unfold linesOf
    rw [this]

theorem remOf_eq_self_of_no_nl {s : List Char} (h : '\n' ∉ s) : remOf s = s := by
  have := splitNlAll_of_none (splitNl_eq_none_iff.mpr h)
  unfold remOf
  rw [this]

theorem splitNl_append_some {x l rest : List Char} (y : List Char)
    (h : splitNl x = some (l, rest)) :
    splitNl (x ++ y) = some (l, rest ++ y) := by
  induction x generalizing l rest with
  | nil => simp [splitNl] at h
  | cons c cs ih =>
    by_cases hc : c = '\n'
    · rw [splitNl, if_pos hc] at h
      simp only [Option.some.injEq, Prod.mk.injEq] at h
      obtain ⟨rfl, rfl⟩ := h
      rw [List.cons_append, splitNl, if_pos hc]
    · rw [splitNl, if_neg hc] at h
      cases hsp : splitNl cs with
      | none => rw [hsp] at h; simp at h
      | some p =>
        obtain ⟨l', r'⟩ := p
        rw [hsp] at h
        simp only [Option.some.injEq, Prod.mk.injEq] at h
        obtain ⟨rfl, rfl⟩ := h
        rw [List.cons_append, splitNl, if_neg hc, ih hsp]

theorem splitNlAll_append_aux :
    ∀ (n : Nat) (x y : List Char), x.length ≤ n →
      linesOf (x ++ y) = linesOf x ++ linesOf (remOf x ++ y) ∧
      remOf (x ++ y) = remOf (remOf x ++ y) := by
  intro n
  induction n with
  | zero =>
    intro x y h
    have hx : x = [] := List.length_eq_zero.mp (Nat.le_zero.mp h)
    subst hx
    simp [linesOf, remOf, splitNlAll]
  | succ n ih =>
    intro x y h
    cases hsp : splitNl x with
    | none =>
      have hrem := remOf_eq_self_of_no_nl (splitNl_eq_none_iff.mp hsp)
      have hlines := linesOf_eq_nil_iff.mpr (splitNl_eq_none_iff.mp hsp)
      rw [hrem, hlines]
      simp
    | some p =>
      obtain ⟨l, rest⟩ := p
      have hxy := splitNl_append_some y hsp
      have h1 := splitNlAll_of_some hsp
      have h2 := splitNlAll_of_some hxy
      have hrest : rest.length ≤ n := by
        have := splitNl_rest_length hsp
        omega
      have ihr := ih rest y hrest
      unfold linesOf remOf at *
      rw [h1, h2]
      exact ⟨by simp [ihr.1], ihr.2⟩

/-- Chunk-boundary homomorphism for line splitting. -/
theorem linesOf_append (x y : List Char) :
    linesOf (x ++ y) = linesOf x ++ linesOf (remOf x ++ y) :=
  (splitNlAll_append_aux x.length x y le_rfl).1

/-- Chunk-boundary homomorphism for the trailing remainder. -/
theorem remOf_append (x y : List Char) :
    remOf (x ++ y) = remOf (remOf x ++ y) :=
  (splitNlAll_append_aux x.length x y le_rfl).2

/-- Splitting a newline-terminated line off the front of a text. -/
theorem splitNl_line {l : List Char} (t : List Char) (hl : '\n' ∉ l) :
    splitNl (l ++ '\n' :: t) = some (l, t) := by
  induction l with
  | nil => rw [List.nil_append, splitNl, if_pos rfl]
  | cons c cs ihl =>
    have hc : c ≠ '\n' := fun hcc => hl (by simp [hcc])
    rw [List.cons_append, splitNl, if_neg hc, ihl (fun hm => hl (by simp [hm]))]

/-- Lines of a fully newline-terminated text whose lines are newline-free. -/
theorem splitNlAll_joinNl {ls : List (List Char)} (h : ∀ l ∈ ls, '\n' ∉ l) :
    splitNlAll (joinNl ls) = (ls, []) := by
  induction ls with
  | nil => simp [joinNl, splitNlAll]
  | cons l ls ih =>
    have hl : '\n' ∉ l := h l (by simp)
    have hsp : splitNl (joinNl (l :: ls)) = some (l, joinNl ls) := by
      simpa [joinNl, List.flatMap_cons, List.append_assoc] using
        splitNl_line (joinNl ls) hl
    have := splitNlAll_of_some hsp
    rw [this, ih (fun m hm => h m (by simp [hm]))]

theorem procF_zero {α : Type} (K : Codec α) (recs : List α) (out buf : List Char) :
    procF K 0 recs out buf = ⟨recs, out, buf⟩ := rfl

theorem procF_succ_none {α : Type} (K : Codec α) {buf : List Char}
    (f : Nat) (recs : List α) (out : List Char) (h : splitNl buf = none) :
    procF K (f + 1) recs out buf = ⟨recs, out, buf⟩ := by
  unfold procF
  rw [h]

theorem procF_succ_some {α : Type} (K : Codec α) {buf line rest : List Char}
    (f : Nat) (recs : List α) (out : List Char) (h : splitNl buf = some (line, rest)) :
    procF K (f + 1) recs out buf =
      if (rustTrim line).isEmpty then procF K f recs out rest
      else
        match K.dec line with
        | none => procF K f recs out rest
        | some r =>
          if K.fin r then ⟨recs ++ [r], out ++ K.cont r, rest⟩
          else procF K f (recs ++ [r]) (out ++ K.cont r) rest := by
  conv_lhs => rw [procF]
  rw [h]

theorem procF_irrel {α : Type} (K : Codec α) :
    ∀ f1 f2 (recs : List α) (out buf : List Char), buf.length ≤ f1 → buf.length ≤ f2 →
      procF K f1 recs out buf = procF K f2 recs out buf := by
  intro f1
  induction f1 with
  | zero =>
    intro f2 recs out buf h1 _
    have hb : buf = [] := List.length_eq_zero.mp (Nat.le_zero.mp h1)
    subst hb
    cases f2 with
    | zero => rfl
    | succ f2 => rw [procF_succ_none K f2 recs out (by simp [splitNl]), procF_zero]
  | succ f1 ih =>
    intro f2 recs out buf h1 h2
    cases f2 with
    | zero =>
      have hb : buf = [] := List.length_eq_zero.mp (Nat.le_zero.mp h2)
      subst hb
      rw [procF_succ_none K f1 recs out (by simp [splitNl]), procF_zero]
    | succ f2 =>
      cases hsp : splitNl buf with
      | none => rw [procF_succ_none K f1 recs out hsp, procF_succ_none K f2 recs out hsp]
      | some p =>
        obtain ⟨line, rest⟩ := p
        have hlen := splitNl_rest_length hsp
        have hr1 : rest.length ≤ f1 := by omega
        have hr2 : rest.length ≤ f2 := by omega
        rw [procF_succ_some K f1 recs out hsp, procF_succ_some K f2 recs out hsp]
        by_cases ht : (rustTrim line).isEmpty
        · simp only [ht, if_true]
          exact ih f2 recs out rest hr1 hr2
        · simp only [ht, if_false]  
          cases hdec : K.dec line with
          | none => exact ih f2 recs out rest hr1 hr2
          | some r =>
            by_cases hf : K.fin r
            · simp [hf]
            · simp only [hf, if_false]
              exact ih f2 (recs ++ [r]) (out ++ K.cont r) rest hr1 hr2

theorem proc_none_split {α : Type} (K : Codec α) {buf : List Char}
    (recs : List α) (out : List Char) (h : splitNl buf = none) :
    proc K recs out buf = ⟨recs, out, buf⟩ := by
  unfold proc
  cases buf with
  | nil => rfl
  | cons c cs => exact procF_succ_none K cs.length recs out h

theorem proc_no_nl {α : Type} (K : Codec α) {buf : List Char}
    (recs : List α) (out : List Char) (h : '\n' ∉ buf) :
    proc K recs out buf = ⟨recs, out, buf⟩ :=
  proc_none_split K recs out (splitNl_eq_none_iff.mpr h)

theorem proc_some_split {α : Type} (K : Codec α) {buf line rest : List Char}
    (recs : List α) (out : List Char) (h : splitNl buf = some (line, rest)) :
    proc K recs out buf =
      if (rustTrim line).isEmpty then proc K recs out rest
      else
        match K.dec line with
        | none => proc K recs out rest
        | some r =>
          if K.fin r then ⟨recs ++ [r], out ++ K.cont r, rest⟩
          else proc K (recs ++ [r]) (out ++ K.cont r) rest := by
  unfold proc
  cases hb : buf with
  | nil => rw [hb] at h; simp [splitNl] at h
  | cons c cs =>
    rw [hb] at h
    have hlen : rest.length ≤ cs.length := by
      have := splitNl_rest_length h
      simp only [List.length_cons] at this
      omega
    rw [List.length_cons, procF_succ_some K cs.length recs out h]
    by_cases ht : (rustTrim line).isEmpty
    · simp only [ht, if_true]
      exact procF_irrel K cs.length rest.length recs out rest hlen le_rfl
    · simp only [ht, if_false]
      cases hdec : K.dec line with
      | none => exact procF_irrel K cs.length rest.length recs out rest hlen le_rfl
      | some r =>
        by_cases hf : K.fin r
        · simp [hf]
        · simp only [hf, if_false]
          exact procF_irrel K cs.length rest.length (recs ++ [r]) (out ++ K.cont r) rest hlen le_rfl

theorem linesProc_nil {α : Type} (K : Codec α) (recs : List α) (out rem : List Char) :
    linesProc K recs out [] rem = ⟨recs, out, rem⟩ := rfl

theorem linesProc_cons {α : Type} (K : Codec α) (recs : List α) (out : List Char)
    (l : List Char) (ls : List (List Char)) (rem : List Char) :
    linesProc K recs out (l :: ls) rem =
      if (rustTrim l).isEmpty then linesProc K recs out ls rem
      else
        match K.dec l with
        | none => linesProc K recs out ls rem
        | some r =>
          if K.fin r then ⟨recs ++ [r], out ++ K.cont r, joinNl ls ++ rem⟩
          else linesProc K (recs ++ [r]) (out ++ K.cont r) ls rem := rfl

theorem proc_eq_linesProc_aux {α : Type} (K : Codec α) :
    ∀ (n : Nat) (s : List Char), s.length ≤ n → ∀ (recs : List α) (out : List Char),
      proc K recs out s = linesProc K recs out (linesOf s) (remOf s) := by
  intro n
  induction n with
  | zero =>
    intro s h recs out
    have hs : s = [] := List.length_eq_zero.mp (Nat.le_zero.mp h)
    subst hs
    rfl
  | succ n ih =>
    intro s h recs out
    cases hsp : splitNl s with
    | none =>
      have h1 := linesOf_eq_nil_iff.mpr (splitNl_eq_none_iff.mp hsp)
      have h2 := remOf_eq_self_of_no_nl (splitNl_eq_none_iff.mp hsp)
      rw [proc_none_split K recs out hsp, h1, h2]
      rfl
    | some p =>
      obtain ⟨line, rest⟩ := p
      have hall := splitNlAll_of_some hsp
      have hlines : linesOf s = line :: linesOf rest := by
        unfold linesOf at *
        rw [hall]
      have hrem : remOf s = remOf rest := by
        unfold remOf at *
        rw [hall]
      have hlen : rest.length ≤ n := by
        have := splitNl_rest_length hsp
        omega
      rw [proc_some_split K recs out hsp, hlines, hrem, linesProc_cons]
      by_cases ht : (rustTrim line).isEmpty
      · rw [if_pos ht, if_pos ht]
        exact ih rest hlen recs out
      · rw [if_neg ht, if_neg ht]
        cases hdec : K.dec line with
        | none => exact ih rest hlen recs out
        | some r =>
          dsimp only
          by_cases hf : K.fin r
          · rw [if_pos hf, if_pos hf, joinNl_linesOf_append_remOf rest]
          · rw [if_neg hf, if_neg hf]
            exact ih rest hlen (recs ++ [r]) (out ++ K.cont r)

/-- The inner loop processes the buffer line by line. -/
theorem proc_eq_linesProc {α : Type} (K : Codec α) (recs : List α) (out s : List Char) :
    proc K recs out s = linesProc K recs out (linesOf s) (remOf s) :=
  proc_eq_linesProc_aux K s.length s le_rfl recs out

theorem isDoneLine_false_cases {α : Type} (K : Codec α) {l : List Char}
    (h : isDoneLine K l = false) {r : α} (ht : ¬(rustTrim l).isEmpty = true)
    (hdec : K.dec l = some r) : K.fin r = false := by
  unfold isDoneLine at h
  rw [if_neg ht, hdec] at h
  exact h

theorem isDoneLine_true_cases {α : Type} (K : Codec α) {l : List Char}
    (h : isDoneLine K l = true) :
    ¬(rustTrim l).isEmpty = true ∧ ∃ r, K.dec l = some r ∧ K.fin r = true := by
  unfold isDoneLine at h
  by_cases ht : (rustTrim l).isEmpty
  · rw [if_pos ht] at h; exact absurd h (by simp)
  · rw [if_neg ht] at h
    refine ⟨ht, ?_⟩
    cases hdec : K.dec l with
    | none => rw [hdec] at h; exact absurd h (by simp)
    | some r => rw [hdec] at h; exact ⟨r, rfl, h⟩

/-- Processing a list of lines with no final record among the first part
continues into the second part, the first part contributing only records and
output (the remainder argument of the first part is irrelevant). -/
theorem linesProc_append {α : Type} (K : Codec α) {L1 : List (List Char)}
    (hnd : ∀ l ∈ L1, isDoneLine K l = false) :
    ∀ (recs : List α) (out : List Char) (L2 : List (List Char)) (rem rem1 : List Char),
      linesProc K recs out (L1 ++ L2) rem =
        linesProc K (linesProc K recs out L1 rem1).recs
          (linesProc K recs out L1 rem1).out L2 rem := by
  induction L1 with
  | nil => intro recs out L2 rem rem1; rfl
  | cons l L1 ih =>
    intro recs out L2 rem rem1
    have hl : isDoneLine K l = false := hnd l (by simp)
    have hnd' : ∀ m ∈ L1, isDoneLine K m = false := fun m hm => hnd m (by simp [hm])
    rw [List.cons_append, linesProc_cons K recs out l (L1 ++ L2) rem,
      linesProc_cons K recs out l L1 rem1]
    by_cases ht : (rustTrim l).isEmpty
    · rw [if_pos ht, if_pos ht]
      exact ih hnd' recs out L2 rem rem1
    · rw [if_neg ht, if_neg ht]
      cases hdec : K.dec l with
      | none => exact ih hnd' recs out L2 rem rem1
      | some r =>
        have hf := isDoneLine_false_cases K hl ht hdec
        dsimp only
        rw [if_neg (by simp [hf]), if_neg (by simp [hf])]
        exact ih hnd' (recs ++ [r]) (out ++ K.cont r) L2 rem rem1

/-- With no final record among the lines, the final buffer is exactly the
trailing remainder. -/
theorem linesProc_buf_noDone {α : Type} (K : Codec α) {L : List (List Char)}
    (hnd : ∀ l ∈ L, isDoneLine K l = false) :
    ∀ (recs : List α) (out rem : List Char), (linesProc K recs out L rem).buf = rem := by
  induction L with
  | nil => intro recs out rem; rfl
  | cons l L ih =>
    intro recs out rem
    have hl : isDoneLine K l = false := hnd l (by simp)
    have hnd' : ∀ m ∈ L, isDoneLine K m = false := fun m hm => hnd m (by simp [hm])
    rw [linesProc_cons]
    by_cases ht : (rustTrim l).isEmpty
    · rw [if_pos ht]
      exact ih hnd' recs out rem
    · rw [if_neg ht]
      cases hdec : K.dec l with
      | none => exact ih hnd' recs out rem
      | some r =>
        have hf := isDoneLine_false_cases K hl ht hdec
        dsimp only
        rw [if_neg (by simp [hf])]
        exact ih hnd' (recs ++ [r]) (out ++ K.cont r) rem

/-- If every line but the last is not a final record and some line of the
first part is final, then the second part is empty and the final record is
the very last line of the first part. -/
theorem done_is_last {α : Type} (K : Codec α) {L1 L2 : List (List Char)}
    (hnd : ∀ l ∈ (L1 ++ L2).dropLast, isDoneLine K l = false)
    (hd : ∃ d ∈ L1, isDoneLine K d = true) :
    L2 = [] ∧ ∃ L1' d, L1 = L1' ++ [d] ∧ isDoneLine K d = true ∧
      ∀ l ∈ L1', isDoneLine K l = false := by
  obtain ⟨d, hdm, hdone⟩ := hd
  have hL2 : L2 = [] := by
    by_contra hne
    have : d ∈ (L1 ++ L2).dropLast := by
      rw [List.dropLast_append_of_ne_nil L1 hne]
      exact List.mem_append_left _ hdm
    rw [hnd d this] at hdone
    exact absurd hdone (by simp)
  subst hL2
  refine ⟨rfl, ?_⟩
  simp only [List.append_nil] at hnd
  have hne : L1 ≠ [] := fun h => by subst h; simp at hdm
  refine ⟨L1.dropLast, L1.getLast hne, (List.dropLast_append_getLast hne).symm, ?_, hnd⟩
  have hdm' : d ∈ L1.dropLast ++ [L1.getLast hne] := by
    rw [List.dropLast_append_getLast hne]; exact hdm
  rcases List.mem_append.mp hdm' with hin | hin
  · rw [hnd d hin] at hdone; exact absurd hdone (by simp)
  · have : d = L1.getLast hne := by simpa using hin
    rw [← this]; exact hdone

/-- Feeding chunks that bring no newline leaves records and output untouched
and accumulates the text in the buffer. -/
theorem foldl_feed_no_nl {α : Type} (K : Codec α) :
    ∀ (cs : List (List Char)) (recs : List α) (out b : List Char),
      '\n' ∉ b ++ cs.flatten →
      cs.foldl (feed K) ⟨recs, out, b⟩ = ⟨recs, out, b ++ cs.flatten⟩ := by
  intro cs
  induction cs with
  | nil =>
    intro recs out b h
    simp [List.flatten_nil]
  | cons c cs ih =>
    intro recs out b h
    simp only [List.flatten_cons] at h
    have hbc : '\n' ∉ b ++ c := by
      intro hm
      exact h (by rcases List.mem_append.mp hm with h1 | h1 <;> simp [h1])
    have hrest : '\n' ∉ (b ++ c) ++ cs.flatten := by
      intro hm
      apply h
      rcases List.mem_append.mp hm with h1 | h1
      · rcases List.mem_append.mp h1 with h2 | h2 <;> simp [h2]
      · simp [h1]
    rw [List.foldl_cons]
    show cs.foldl (feed K) (proc K recs out (b ++ c)) = _
    rw [proc_no_nl K recs out hbc, ih recs out (b ++ c) hrest]
    simp [List.flatten_cons, List.append_assoc]

/-- Chunk-boundary invariance of the streaming loop: provided no line before
the last is a final record, folding the per-chunk loop over the chunk texts
computes exactly the single-pass processing of their concatenation. -/
theorem runChunks_eq_single_aux {α : Type} (K : Codec α) :
    ∀ (chunks : List (List Char)) (recs : List α) (out b : List Char),
      '\n' ∉ b →
      (∀ l ∈ (linesOf (b ++ chunks.flatten)).dropLast, isDoneLine K l = false) →
      chunks.foldl (feed K) ⟨recs, out, b⟩ = proc K recs out (b ++ chunks.flatten) := by
  intro chunks
  induction chunks with
  | nil =>
    intro recs out b hb _
    simp only [List.foldl_nil, List.flatten_nil, List.append_nil]
    exact (proc_no_nl K recs out hb).symm
  | cons c cs ih =>
    intro recs out b hb hnd
    simp only [List.flatten_cons, List.foldl_cons] at hnd ⊢
    rw [← List.append_assoc] at hnd
    have hsplit := linesOf_append (b ++ c) cs.flatten
    have hremsplit := remOf_append (b ++ c) cs.flatten
    have hrnl : '\n' ∉ remOf (b ++ c) := nl_not_mem_remOf (b ++ c)
    by_cases hA : ∀ l ∈ linesOf (b ++ c), isDoneLine K l = false
    · -- no final record inside this chunk: the chunk is fully absorbed
      have hnd' : ∀ l ∈ (linesOf (remOf (b ++ c) ++ cs.flatten)).dropLast,
          isDoneLine K l = false := by
        intro l hl
        apply hnd
        rw [hsplit]
        cases hX : linesOf (remOf (b ++ c) ++ cs.flatten) with
        | nil => rw [hX] at hl; simp at hl
        | cons x xs =>
          rw [List.dropLast_append_of_ne_nil _ (by simp)]
          rw [hX] at hl
          exact List.mem_append_right _ hl
      have hbuf := linesProc_buf_noDone K hA recs out (remOf (b ++ c))
      cases hst : linesProc K recs out (linesOf (b ++ c)) (remOf (b ++ c)) with
      | mk R1 O1 B1 =>
        rw [hst] at hbuf
        simp only at hbuf
        subst hbuf
        have hfeed : feed K ⟨recs, out, b⟩ c = ⟨R1, O1, remOf (b ++ c)⟩ := by
          show proc K recs out (b ++ c) = _
          rw [proc_eq_linesProc K recs out (b ++ c), hst]
        have hih := ih R1 O1 (remOf (b ++ c)) hrnl hnd'
        rw [hfeed, hih,
          proc_eq_linesProc K R1 O1 (remOf (b ++ c) ++ cs.flatten),
          ← List.append_assoc,
          proc_eq_linesProc K recs out ((b ++ c) ++ cs.flatten), hsplit, hremsplit,
          linesProc_append K hA recs out (linesOf (remOf (b ++ c) ++ cs.flatten))
            (remOf (remOf (b ++ c) ++ cs.flatten)) (remOf (b ++ c)), hst]
    · -- the final record arrives inside this chunk
      push_neg at hA
      have hex : ∃ d ∈ linesOf (b ++ c), isDoneLine K d = true := by
        obtain ⟨d, hdm, hdne⟩ := hA
        exact ⟨d, hdm, by simpa using hdne⟩
      have hnd2 : ∀ l ∈ (linesOf (b ++ c) ++ linesOf (remOf (b ++ c) ++ cs.flatten)).dropLast,
          isDoneLine K l = false := by
        intro l hl
        apply hnd
        rw [hsplit]
        exact hl
      obtain ⟨hX, L1', d, hdecomp, hdone, hnd1'⟩ := done_is_last K hnd2 hex
      have hnlrest : '\n' ∉ remOf (b ++ c) ++ cs.flatten := by
        rw [← linesOf_eq_nil_iff]
        exact hX
      obtain ⟨ht, r, hdec, hfin⟩ := isDoneLine_true_cases K hdone
      have hfeed : feed K ⟨recs, out, b⟩ c =
          ⟨(linesProc K recs out L1' (remOf (b ++ c))).recs ++ [r],
            (linesProc K recs out L1' (remOf (b ++ c))).out ++ K.cont r,
            remOf (b ++ c)⟩ := by
        show proc K recs out (b ++ c) = _
        rw [proc_eq_linesProc K recs out (b ++ c), hdecomp,
          linesProc_append K hnd1' recs out [d] (remOf (b ++ c)) (remOf (b ++ c)),
          linesProc_cons, if_neg ht, hdec]
        dsimp only
        rw [if_pos hfin]
        simp [joinNl]
      rw [hfeed, foldl_feed_no_nl K cs _ _ (remOf (b ++ c)) hnlrest,
        ← List.append_assoc, proc_eq_linesProc K recs out ((b ++ c) ++ cs.flatten),
        hsplit, hX, List.append_nil, hdecomp, hremsplit,
        remOf_eq_self_of_no_nl hnlrest,
        linesProc_append K hnd1' recs out [d] (remOf (b ++ c) ++ cs.flatten) (remOf (b ++ c)),
        linesProc_cons, if_neg ht, hdec]
      dsimp only
      rw [if_pos hfin]
      simp [joinNl]

theorem streamWF_noDone {α : Type} {K : Codec α} {s : List Char}
    (h : streamWF K s = true) :
    ∀ l ∈ (linesOf s).dropLast, isDoneLine K l = false := by
  unfold streamWF at h
  rw [Bool.and_eq_true] at h
  intro l hl
  have := List.all_eq_true.mp h.2 l hl
  simpa using this

/-- Chunk-boundary invariance, stated against the outer loop: a protocol
well-formed stream text produces the same state however it is cut into
chunks. -/
theorem runChunks_eq_single {α : Type} (K : Codec α) (chunks : List (List Char))
    (hnd : ∀ l ∈ (linesOf chunks.flatten).dropLast, isDoneLine K l = false) :
    runChunks K chunks = runChunks K [chunks.flatten] := by
  unfold runChunks
  have h1 := runChunks_eq_single_aux K chunks [] [] []
    (by simp) (by simpa using hnd)
  have h2 := runChunks_eq_single_aux K [chunks.flatten] [] [] []
    (by simp) (by simpa using hnd)
  simp only [List.nil_append] at h1 h2
  rw [h1, h2]
  simp

/-- C1, counterexample: the claim fails as stated. The byte sequence `cxB`
is well-formed NDJSON (one newline-terminated record line, final flag on the
last line), and `cxB1 ++ cxB2 = cxB` is a split of it whose boundary falls
inside the multi-byte character U+00E9. Fed as a single chunk the loop
decodes the record with content `"é"`; fed as the two chunks, each half of
the character is lossily decoded to U+FFFD, so the decoded record has
content `"��"` — a different ordered sequence of decoded records. -/
theorem c1_counterexample :
    cxB = cxB1 ++ cxB2 ∧
    streamWF chatCodec (utf8Lossy cxB) = true ∧
    (runBytes chatCodec [cxB]).recs = [⟨⟨"a".data, [Char.ofNat 0xE9]⟩, true⟩] ∧
    (runBytes chatCodec [cxB1, cxB2]).recs =
      [⟨⟨"a".data, [replChar, replChar]⟩, true⟩] ∧
    (runBytes chatCodec [cxB]).recs ≠ (runBytes chatCodec [cxB1, cxB2]).recs :=
  ⟨by decide, by decide, by decide, by decide, by decide⟩

/-- C1, amended: for every well-formed NDJSON stream and every way of
splitting its text into chunks at character boundaries (a split inside a
multi-byte UTF-8 character can change the lossily decoded record contents,
see the counterexample), feeding the chunks one by one through the
line-reassembly-and-decode loop of `send_chat_message` (chat records) or
`ask_once` (generate records) yields exactly the same loop state — the same
ordered sequence of decoded records, the same printed and accumulated text,
and the same leftover buffer — as feeding the whole text as one chunk. -/
theorem c1_chunk_invariance_amended (chunks : List (List Char)) :
    (streamWF chatCodec chunks.flatten = true →
      runChunks chatCodec chunks = runChunks chatCodec [chunks.flatten]) ∧
    (streamWF genCodec chunks.flatten = true →
      runChunks genCodec chunks = runChunks genCodec [chunks.flatten]) :=
  ⟨fun h => runChunks_eq_single chatCodec chunks (streamWF_noDone h),
   fun h => runChunks_eq_single genCodec chunks (streamWF_noDone h)⟩

/-- Witness for the amended C1 at concrete inputs: both hypotheses are
discharged by evaluation and both equalities are obtained from the theorem. -/
theorem c1_witness :
    streamWF chatCodec ([wChatChunk1, wChatChunk2].flatten) = true ∧
    runChunks chatCodec [wChatChunk1, wChatChunk2] =
      runChunks chatCodec [[wChatChunk1, wChatChunk2].flatten] ∧
    streamWF genCodec ([wGenChunk1, wGenChunk2].flatten) = true ∧
    runChunks genCodec [wGenChunk1, wGenChunk2] =
      runChunks genCodec [[wGenChunk1, wGenChunk2].flatten] :=
  ⟨by decide,
   (c1_chunk_invariance_amended [wChatChunk1, wChatChunk2]).1 (by decide),
   by decide,
   (c1_chunk_invariance_amended [wGenChunk1, wGenChunk2]).2 (by decide)⟩

theorem rustTrim_empty_all_ws {l : List Char} (h : (rustTrim l).isEmpty = true) :
    ∀ c ∈ l, isRustWs c = true := by
  unfold rustTrim at h
  rw [List.isEmpty_iff, List.reverse_eq_nil_iff, List.dropWhile_eq_nil_iff] at h
  have h2 : ∀ x ∈ l.dropWhile isRustWs, isRustWs x = true := by
    intro x hx
    exact h x (List.mem_reverse.mpr hx)
  intro c hc
  rw [← List.takeWhile_append_dropWhile isRustWs l] at hc
  rcases List.mem_append.mp hc with h3 | h3
  · exact List.mem_takeWhile_imp h3
  · exact h2 c h3

theorem parseCore_pval_skipWs_nil {s : List Char} (f : Nat) (h : skipWs s = []) :
    parseCore f PMode.pval s = none := by
  cases f with
  | zero => rfl
  | succ f =>
    simp only [parseCore]
    rw [h]

theorem parseCore_pval_ws_head {s : List Char} (f : Nat) {c : Char} {cs : List Char}
    (hsk : skipWs s = c :: cs) (hrws : isRustWs c = true) :
    parseCore f PMode.pval s = none := by
  have h1 : (9 ≤ c.toNat ∧ c.toNat ≤ 13) ∨ c.toNat = 32 ∨ c.toNat = 0x85 ∨
      c.toNat = 0xA0 ∨ c.toNat = 0x1680 ∨ (0x2000 ≤ c.toNat ∧ c.toNat ≤ 0x200A) ∨
      c.toNat = 0x2028 ∨ c.toNat = 0x2029 ∨ c.toNat = 0x202F ∨ c.toNat = 0x205F ∨
      c.toNat = 0x3000 := by
    unfold isRustWs at hrws
    simp only [Bool.or_eq_true, Bool.and_eq_true, decide_eq_true_eq, beq_iff_eq] at hrws
    tauto
  cases f with
  | zero => rfl
  | succ f =>
    simp only [parseCore]
    rw [hsk]
    dsimp only
    rw [if_neg (fun heq : c = lBrace => by rw [heq] at h1; revert h1; decide),
      if_neg (fun heq : c = '[' => by rw [heq] at h1; revert h1; decide),
      if_neg (fun heq : c = qMark => by rw [heq] at h1; revert h1; decide),
      if_neg (fun heq : c = 't' => by rw [heq] at h1; revert h1; decide),
      if_neg (fun heq : c = 'f' => by rw [heq] at h1; revert h1; decide),
      if_neg (fun heq : c = 'n' => by rw [heq] at h1; revert h1; decide),
      if_neg ?hmix]
    case hmix =>
      rintro (heq | hdig)
      · rw [heq] at h1; revert h1; decide
      · unfold isDigit at hdig
        simp only [Bool.and_eq_true, decide_eq_true_eq] at hdig
        omega

/-- A line that is blank after trimming cannot decode: the `serde_json`
parser finds no value start. Hence the source's explicit blank-line skip
never hides a decodable record. -/
theorem jsonDecodeValue_trim_empty {l : List Char} (h : (rustTrim l).isEmpty = true) :
    jsonDecodeValue l = none := by
  have hws := rustTrim_empty_all_ws h
  unfold jsonDecodeValue
  cases hsk : skipWs l with
  | nil => rw [parseCore_pval_skipWs_nil _ hsk]
  | cons c cs =>
    have hcmem : c ∈ l := by
      have hsub := List.dropWhile_sublist (l := l) isJsonWs
      have : c ∈ skipWs l := by rw [hsk]; simp
      exact List.Sublist.mem this hsub
    rw [parseCore_pval_ws_head _ hsk (hws c hcmem)]

theorem jsonDecodeChat_trim_empty {l : List Char} (h : (rustTrim l).isEmpty = true) :
    jsonDecodeChat l = none := by
  unfold jsonDecodeChat
  rw [jsonDecodeValue_trim_empty h]

theorem jsonDecodeGen_trim_empty {l : List Char} (h : (rustTrim l).isEmpty = true) :
    jsonDecodeGen l = none := by
  unfold jsonDecodeGen
  rw [jsonDecodeValue_trim_empty h]

/-- Closed form of line processing when no line is final: every line that
decodes contributes its record and its content, in order; blank and
undecodable lines are skipped. (The hypothesis that blank lines do not
decode holds for both `serde_json` decoders.) -/
theorem linesProc_closed {α : Type} (K : Codec α)
    (hskip : ∀ l : List Char, (rustTrim l).isEmpty = true → K.dec l = none) :
    ∀ (L : List (List Char)), (∀ l ∈ L, isDoneLine K l = false) →
      ∀ (recs : List α) (out rem : List Char),
      linesProc K recs out L rem =
        ⟨recs ++ L.filterMap K.dec,
          out ++ (L.filterMap K.dec).flatMap K.cont, rem⟩ := by
  intro L
  induction L with
  | nil => intro _ recs out rem; simp [linesProc_nil]
  | cons l L ih =>
    intro hnd recs out rem
    have hl : isDoneLine K l = false := hnd l (by simp)
    have hnd' : ∀ m ∈ L, isDoneLine K m = false := fun m hm => hnd m (by simp [hm])
    rw [linesProc_cons]
    by_cases ht : (rustTrim l).isEmpty
    · rw [if_pos ht, ih hnd' recs out rem]
      have hdec := hskip l ht
      simp [List.filterMap_cons, hdec]
    · rw [if_neg ht]
      cases hdec : K.dec l with
      | none =>
        rw [ih hnd' recs out rem]
        simp [List.filterMap_cons, hdec]
      | some r =>
        have hf := isDoneLine_false_cases K hl ht hdec
        dsimp only
        rw [if_neg (by simp [hf]), ih hnd' (recs ++ [r]) (out ++ K.cont r) rem]
        simp [List.filterMap_cons, hdec, List.append_assoc]

/-- C2: for a stream whose lines end with a record carrying `done: true`
(and, per the protocol, no earlier line is a final record), processing
consumes exactly those lines, and the `Message` returned by
`send_chat_message` has role `assistant` and content equal to the
concatenation, in arrival order, of the `message.content` fields of all
decoded records, up to and including the final one; the decoded record
sequence is exactly the ordered sequence of decodable lines. -/
theorem c2_turn_completion (lines front : List (List Char))
    (lastLine : List Char) (r : ChatResponse)
    (hsplit : lines = front ++ [lastLine])
    (hnl : ∀ l ∈ lines, '\n' ∉ l)
    (hfront : ∀ l ∈ front, isDoneLine chatCodec l = false)
    (hdec : jsonDecodeChat lastLine = some r)
    (hdone : r.done = true) :
    (sendChatChars [joinNl lines]).role = "assistant".data ∧
    (sendChatChars [joinNl lines]).content =
      (lines.filterMap jsonDecodeChat).flatMap (fun q => q.message.content) ∧
    (runChunks chatCodec [joinNl lines]).recs = lines.filterMap jsonDecodeChat := by
  have hskip : ∀ l : List Char, (rustTrim l).isEmpty = true → chatCodec.dec l = none :=
    fun l hl => jsonDecodeChat_trim_empty hl
  have ht : ¬(rustTrim lastLine).isEmpty = true := by
    intro ht
    rw [jsonDecodeChat_trim_empty ht] at hdec
    exact absurd hdec (by simp)
  have hrun : runChunks chatCodec [joinNl lines] =
      linesProc chatCodec [] [] lines [] := by
    show feed chatCodec ⟨[], [], []⟩ (joinNl lines) = _
    show proc chatCodec [] [] ([] ++ joinNl lines) = _
    rw [List.nil_append, proc_eq_linesProc chatCodec [] [] (joinNl lines)]
    unfold linesOf remOf
    rw [splitNlAll_joinNl hnl]
  have hstep : linesProc chatCodec [] [] lines [] =
      ⟨front.filterMap jsonDecodeChat ++ [r],
        (front.filterMap jsonDecodeChat).flatMap (fun q => q.message.content) ++
          r.message.content, []⟩ := by
    have hdec' : chatCodec.dec lastLine = some r := hdec
    have hdone' : chatCodec.fin r = true := hdone
    rw [hsplit, linesProc_append chatCodec hfront [] [] [lastLine] [] [],
      linesProc_closed chatCodec hskip front hfront [] [] [], linesProc_cons,
      if_neg ht, hdec']
    dsimp only
    rw [if_pos hdone']
    simp [joinNl, chatCodec]
  have hfm : lines.filterMap jsonDecodeChat = front.filterMap jsonDecodeChat ++ [r] := by
    rw [hsplit, List.filterMap_append]
    simp [List.filterMap_cons, hdec]
  refine ⟨rfl, ?_, ?_⟩
  · show (runChunks chatCodec [joinNl lines]).out = _
    rw [hrun, hstep, hfm]
    simp
  · rw [hrun, hstep, hfm]

/-- Witness for C2 at a concrete two-record stream. -/
theorem c2_witness :
    (sendChatChars [joinNl [w2Line1, w2Line2]]).role = "assistant".data ∧
    (sendChatChars [joinNl [w2Line1, w2Line2]]).content =
      ([w2Line1, w2Line2].filterMap jsonDecodeChat).flatMap (fun q => q.message.content) ∧
    (runChunks chatCodec [joinNl [w2Line1, w2Line2]]).recs =
      [w2Line1, w2Line2].filterMap jsonDecodeChat :=
  c2_turn_completion [w2Line1, w2Line2] [w2Line1] w2Line2 w2Rec rfl
    (by decide) (by decide) (by decide) (by decide)

/-- Feeding a fully newline-terminated text of newline-free lines as one
chunk processes exactly those lines. -/
theorem runChunks_single_joinNl {α : Type} (K : Codec α) (ls : List (List Char))
    (hnl : ∀ l ∈ ls, '\n' ∉ l) :
    runChunks K [joinNl ls] = linesProc K [] [] ls [] := by
  show feed K ⟨[], [], []⟩ (joinNl ls) = _
  show proc K [] [] ([] ++ joinNl ls) = _
  rw [List.nil_append, proc_eq_linesProc K [] [] (joinNl ls)]
  unfold linesOf remOf
  rw [splitNlAll_joinNl hnl]

/-- C4: a stream of one syntactically invalid line between two valid record
lines decodes to exactly the two valid records, in order, with no error: the
invalid line is silently skipped, the accumulated output is the two contents
in order, and nothing is left buffered. -/
theorem c4_malformed_line_skipped (l1 bad l2 : List Char) (r1 r2 : ChatResponse)
    (hnl1 : '\n' ∉ l1) (hnlb : '\n' ∉ bad) (hnl2 : '\n' ∉ l2)
    (hdec1 : jsonDecodeChat l1 = some r1) (hfin1 : r1.done = false)
    (hdecb : jsonDecodeChat bad = none)
    (hdec2 : jsonDecodeChat l2 = some r2) :
    runChunks chatCodec [joinNl [l1, bad, l2]] =
      ⟨[r1, r2], r1.message.content ++ r2.message.content, []⟩ := by
  have hdec1' : chatCodec.dec l1 = some r1 := hdec1
  have hdecb' : chatCodec.dec bad = none := hdecb
  have hdec2' : chatCodec.dec l2 = some r2 := hdec2
  have ht1 : ¬(rustTrim l1).isEmpty = true := by
    intro h
    rw [jsonDecodeChat_trim_empty h] at hdec1
    exact absurd hdec1 (by simp)
  have ht2 : ¬(rustTrim l2).isEmpty = true := by
    intro h
    rw [jsonDecodeChat_trim_empty h] at hdec2
    exact absurd hdec2 (by simp)
  have hfin1' : ¬ chatCodec.fin r1 = true := by
    show ¬ r1.done = true
    simp [hfin1]
  rw [runChunks_single_joinNl chatCodec [l1, bad, l2] (by
    intro l hl
    simp only [List.mem_cons, List.not_mem_nil, or_false] at hl
    rcases hl with rfl | rfl | rfl
    · exact hnl1
    · exact hnlb
    · exact hnl2)]
  rw [linesProc_cons, if_neg ht1, hdec1']
  dsimp only
  rw [if_neg hfin1']
  have hbadstep : ∀ (recs : List ChatResponse) (out : List Char),
      linesProc chatCodec recs out [bad, l2] [] = linesProc chatCodec recs out [l2] [] := by
    intro recs out
    rw [linesProc_cons]
    by_cases htb : (rustTrim bad).isEmpty
    · rw [if_pos htb]
    · rw [if_neg htb, hdecb']
  rw [hbadstep, linesProc_cons, if_neg ht2, hdec2']
  dsimp only
  by_cases hf2 : chatCodec.fin r2
  · rw [if_pos hf2]
    simp [joinNl, chatCodec]
  · rw [if_neg hf2, linesProc_nil]
    simp [chatCodec]

/-- Witness for C4 at a concrete three-line stream. -/
theorem c4_witness :
    runChunks chatCodec [joinNl [w2Line1, w4Bad, w2Line2]] =
      ⟨[w4Rec1, w2Rec], w4Rec1.message.content ++ w2Rec.message.content, []⟩ :=
  c4_malformed_line_skipped w2Line1 w4Bad w2Line2 w4Rec1 w2Rec
    (by decide) (by decide) (by decide) (by decide) (by decide) (by decide) (by decide)

/-- C6: when the byte stream ends while the pending buffer holds trailing
text with no terminating newline, that trailing text is discarded: a final
chunk bringing no newline changes neither the decoded records nor the
printed/accumulated output — it only sits in the buffer — and the `Message`
returned by `send_chat_message` is unchanged. Stream end is handled as
normal termination of the loop, not as an error. -/
theorem c6_trailing_discarded (chunks : List (List Nat)) (t : List Nat)
    (hbuf : '\n' ∉ (runBytes chatCodec chunks).buf)
    (ht : '\n' ∉ utf8Lossy t) :
    runBytes chatCodec (chunks ++ [t]) =
      ⟨(runBytes chatCodec chunks).recs, (runBytes chatCodec chunks).out,
        (runBytes chatCodec chunks).buf ++ utf8Lossy t⟩ ∧
    sendChatMessage (chunks ++ [t]) = sendChatMessage chunks := by
  have h1 : runBytes chatCodec (chunks ++ [t]) =
      feed chatCodec (runBytes chatCodec chunks) (utf8Lossy t) := by
    unfold runBytes runChunks
    rw [List.map_append, List.foldl_append]
    rfl
  have h2 : feed chatCodec (runBytes chatCodec chunks) (utf8Lossy t) =
      ⟨(runBytes chatCodec chunks).recs, (runBytes chatCodec chunks).out,
        (runBytes chatCodec chunks).buf ++ utf8Lossy t⟩ := by
    show proc chatCodec _ _ ((runBytes chatCodec chunks).buf ++ utf8Lossy t) = _
    exact proc_no_nl chatCodec _ _ (by
      intro hm
      rcases List.mem_append.mp hm with h | h
      · exact hbuf h
      · exact ht h)
  refine ⟨h1.trans h2, ?_⟩
  unfold sendChatMessage
  rw [h1, h2]

/-- Witness for C6 at a concrete stream with an unterminated tail. -/
theorem c6_witness :
    runBytes chatCodec [w6Chunk, w6Tail] =
      ⟨(runBytes chatCodec [w6Chunk]).recs, (runBytes chatCodec [w6Chunk]).out,
        (runBytes chatCodec [w6Chunk]).buf ++ utf8Lossy w6Tail⟩ ∧
    sendChatMessage [w6Chunk, w6Tail] = sendChatMessage [w6Chunk] :=
  c6_trailing_discarded [w6Chunk] w6Tail (by decide) (by decide)

theorem chatLoop_nil (reply : List Message → List Char) (msgs : List Message) :
    chatLoop reply msgs [] = (msgs, []) := rfl

theorem chatLoop_cons (reply : List Message → List Char) (msgs : List Message)
    (inp : List Char) (rest : List (List Char)) :
    chatLoop reply msgs (inp :: rest) =
      if isExitInput (rustTrim inp) then (msgs, [])
      else if (rustTrim inp).isEmpty then chatLoop reply msgs rest
      else
        ((chatLoop reply ((msgs ++ [userMsg (rustTrim inp)]) ++
            [assistantMsg (reply (msgs ++ [userMsg (rustTrim inp)]))]) rest).1,
          (msgs ++ [userMsg (rustTrim inp)]) ::
            (chatLoop reply ((msgs ++ [userMsg (rustTrim inp)]) ++
              [assistantMsg (reply (msgs ++ [userMsg (rustTrim inp)]))]) rest).2) := rfl

theorem turnPair_length (pairs : List (List Char × List Char)) :
    (pairs.flatMap turnPair).length = 2 * pairs.length := by
  induction pairs with
  | nil => rfl
  | cons p ps ih =>
    simp only [List.flatMap_cons, List.length_append, ih, List.length_cons]
    simp [turnPair]
    omega

theorem turnInputs_cons (inp : List Char) (rest : List (List Char)) :
    turnInputs (inp :: rest) =
      if isExitInput (rustTrim inp) then []
      else if (rustTrim inp).isEmpty then turnInputs rest
      else rustTrim inp :: turnInputs rest := rfl

theorem chatLoop_shape (tasksJson : List Char) (reply : List Message → List Char) :
    ∀ (inputs : List (List Char)) (pairs : List (List Char × List Char)),
      ∃ pairs' : List (List Char × List Char),
        pairs'.length = pairs.length + (turnInputs inputs).length ∧
        (chatLoop reply (systemMsg tasksJson :: pairs.flatMap turnPair) inputs).1 =
          systemMsg tasksJson :: pairs'.flatMap turnPair := by
  intro inputs
  induction inputs with
  | nil =>
    intro pairs
    exact ⟨pairs, by simp [turnInputs], rfl⟩
  | cons inp rest ih =>
    intro pairs
    rw [chatLoop_cons]
    by_cases hex : isExitInput (rustTrim inp) = true
    · rw [if_pos hex]
      exact ⟨pairs, by simp [turnInputs, hex], rfl⟩
    · rw [if_neg hex]
      by_cases hem : (rustTrim inp).isEmpty = true
      · rw [if_pos hem]
        obtain ⟨pairs', h1, h2⟩ := ih pairs
        refine ⟨pairs', ?_, h2⟩
        rw [h1, turnInputs_cons, if_neg hex, if_pos hem]
      · rw [if_neg hem]
        have hshape : (systemMsg tasksJson :: pairs.flatMap turnPair ++ [userMsg (rustTrim inp)]) ++
            [assistantMsg (reply (systemMsg tasksJson :: pairs.flatMap turnPair ++ [userMsg (rustTrim inp)]))] =
            systemMsg tasksJson ::
              (pairs ++ [(rustTrim inp,
                reply (systemMsg tasksJson :: pairs.flatMap turnPair ++ [userMsg (rustTrim inp)]))]).flatMap turnPair := by
          simp [turnPair, List.flatMap_append]
        rw [hshape]
        obtain ⟨pairs', h1, h2⟩ := ih (pairs ++ [(rustTrim inp,
          reply (systemMsg tasksJson :: pairs.flatMap turnPair ++ [userMsg (rustTrim inp)]))])
        refine ⟨pairs', ?_, h2⟩
        rw [h1, turnInputs_cons, if_neg hex, if_neg hem]
        simp only [List.length_append, List.length_cons, List.length_nil]
        omega

/-- C3: in chat mode, after the initial prompt and the further inputs have
been consumed, the conversation history is exactly one system message —
first, inserted once, never duplicated or mutated — followed by alternating
user/assistant pairs in insertion order: `1 + 2 * N` messages for `N`
completed user turns (the initial prompt plus every nonblank, non-exit
input line). -/
theorem c3_history_shape (initialPrompt tasksJson : List Char)
    (inputs : List (List Char)) (reply : List Message → List Char) :
    ∃ pairs : List (List Char × List Char),
      pairs.length = 1 + (turnInputs inputs).length ∧
      (askChat initialPrompt tasksJson inputs reply).1 =
        systemMsg tasksJson :: pairs.flatMap turnPair ∧
      (askChat initialPrompt tasksJson inputs reply).1.length =
        1 + 2 * (1 + (turnInputs inputs).length) := by
  obtain ⟨pairs', h1, h2⟩ := chatLoop_shape tasksJson reply inputs
    [(initialPrompt, reply [systemMsg tasksJson, userMsg initialPrompt])]
  have hstart : systemMsg tasksJson ::
      ([(initialPrompt, reply [systemMsg tasksJson, userMsg initialPrompt])]).flatMap turnPair =
      [systemMsg tasksJson, userMsg initialPrompt] ++
        [assistantMsg (reply [systemMsg tasksJson, userMsg initialPrompt])] := by
    simp [turnPair]
  rw [hstart] at h2
  have hask : (askChat initialPrompt tasksJson inputs reply).1 =
      (chatLoop reply ([systemMsg tasksJson, userMsg initialPrompt] ++
        [assistantMsg (reply [systemMsg tasksJson, userMsg initialPrompt])]) inputs).1 := rfl
  refine ⟨pairs', by simpa using h1, ?_, ?_⟩
  · rw [hask, h2]
  · have hlen : (systemMsg tasksJson :: pairs'.flatMap turnPair).length =
        1 + 2 * pairs'.length := by
      rw [List.length_cons, turnPair_length]
      omega
    rw [hask, h2, hlen, h1]
    simp only [List.length_cons, List.length_nil]

/-- C5: a chat-mode input equal to `exit` or `quit` after trimming, compared
case-insensitively, terminates the loop at once: the history is returned
unchanged (nothing appended) and no request is issued, whatever inputs were
still pending. -/
theorem c5_exit_input (reply : List Message → List Char) (msgs : List Message)
    (inp : List Char) (rest : List (List Char))
    (h : isExitInput (rustTrim inp) = true) :
    chatLoop reply msgs (inp :: rest) = (msgs, []) := by
  rw [chatLoop_cons, if_pos h]

/-- Witness for C5 on the mixed-case input `" QuIt "`. -/
theorem c5_witness :
    chatLoop (fun _ => []) [systemMsg []] (" QuIt ".data :: ["hello".data]) =
      ([systemMsg []], []) :=
  c5_exit_input (fun _ => []) [systemMsg []] " QuIt ".data ["hello".data] (by decide)

/-- C8: a chat-mode input that is empty after trimming is ignored: the loop
re-prompts — it continues with the remaining inputs with the history
untouched and no request issued for that line. -/
theorem c8_empty_input (reply : List Message → List Char) (msgs : List Message)
    (inp : List Char) (rest : List (List Char))
    (h : (rustTrim inp).isEmpty = true) :
    chatLoop reply msgs (inp :: rest) = chatLoop reply msgs rest := by
  have hex : isExitInput (rustTrim inp) = false := by
    rw [List.isEmpty_iff.mp h]
    decide
  rw [chatLoop_cons, if_neg (by simp [hex]), if_pos h]

/-- Witness for C8 on a whitespace-only input line. -/
theorem c8_witness :
    chatLoop (fun _ => []) [systemMsg []] ["  \t ".data, "exit".data] =
      chatLoop (fun _ => []) [systemMsg []] ["exit".data] :=
  c8_empty_input (fun _ => []) [systemMsg []] "  \t ".data ["exit".data] (by decide)

/-- C7: an `ask` invocation whose prompt is empty or whitespace-only after
trimming prints the user-visible message and returns success without
constructing a request or reaching `ask_ai` (hence no network call). -/
theorem c7_blank_prompt_rejected (prompt tasksJson : List Char) (chat : Bool)
    (h : (rustTrim prompt).isEmpty = true) :
    askCommand prompt tasksJson chat = ⟨[askErrorLine], none, true⟩ := by
  unfold askCommand
  rw [if_pos h]

/-- Witness for C7 on a whitespace-only prompt. -/
theorem c7_witness :
    askCommand "   ".data "[]".data false = ⟨[askErrorLine], none, true⟩ :=
  c7_blank_prompt_rejected "   ".data "[]".data false (by decide)

theorem iterMax_ge : ∀ (xs : List Nat), ∀ x ∈ xs, x ≤ (iterMax xs).getD 0 := by
  intro xs
  induction xs with
  | nil => intro x hx; simp at hx
  | cons y ys ih =>
    intro x hx
    rcases List.mem_cons.mp hx with rfl | hx'
    · cases hm : iterMax ys with
      | none => simp [iterMax, hm]
      | some m => simp [iterMax, hm]
    · have := ih x hx'
      cases hm : iterMax ys with
      | none =>
        cases ys with
        | nil => simp at hx'
        | cons a as => simp [iterMax] at hm
      | some m =>
        rw [hm] at this
        simp only [iterMax, hm, Option.getD_some]
        exact le_trans this (le_max_right y m)

/-- C9: whenever the highest existing id is below 255, `get_next_id` returns
that maximum plus one (1 on the empty list), so the id given to the task
appended by `add` is strictly greater than — in particular distinct from —
every existing id. The arithmetic is `u8`: once a task has id 255 there is
no id below 256 that exceeds every existing id, so no representable fresh
id remains. -/
theorem c9_next_id (tasks : List TodoTask) :
    ((iterMax (tasks.map (fun t => t.id))).getD 0 < 255 →
      get_next_id tasks = (iterMax (tasks.map (fun t => t.id))).getD 0 + 1 ∧
      (tasks = [] → get_next_id tasks = 1) ∧
      (∀ t ∈ tasks, t.id < get_next_id tasks) ∧
      (∀ descr, addTask tasks descr =
        tasks ++ [⟨(iterMax (tasks.map (fun t => t.id))).getD 0 + 1, descr, false⟩])) ∧
    (255 ∈ tasks.map (fun t => t.id) →
      ¬∃ n : Nat, n < 256 ∧ ∀ t ∈ tasks, t.id < n) := by
  constructor
  · intro hmax
    have heq : get_next_id tasks = (iterMax (tasks.map (fun t => t.id))).getD 0 + 1 := by
      unfold get_next_id
      exact Nat.mod_eq_of_lt (by omega)
    refine ⟨heq, ?_, ?_, ?_⟩
    · intro hnil
      subst hnil
      rfl
    · intro t ht
      have : t.id ≤ (iterMax (tasks.map (fun q => q.id))).getD 0 :=
        iterMax_ge _ t.id (List.mem_map.mpr ⟨t, ht, rfl⟩)
      omega
    · intro descr
      unfold addTask
      rw [heq]
  · intro h255
    rintro ⟨n, hn, hall⟩
    obtain ⟨t, ht, hid⟩ := List.mem_map.mp h255
    have := hall t ht
    omega

/-- Witness for C9: both halves applied at concrete lists. -/
theorem c9_witness :
    (get_next_id w9Tasks = 4 ∧ (∀ t ∈ w9Tasks, t.id < get_next_id w9Tasks)) ∧
    ¬∃ n : Nat, n < 256 ∧ ∀ t ∈ w9Full, t.id < n := by
  refine ⟨?_, ((c9_next_id w9Full).2 (by decide))⟩
  have h := (c9_next_id w9Tasks).1 (by decide)
  refine ⟨?_, ?_⟩
  · rw [h.1]
    decide
  · intro t ht
    exact h.2.2.1 t ht

/-- C10: removing an id that matches no task leaves the list untouched and
does not rewrite the task file; in general the file is rewritten exactly
when some task carried the id, i.e. when the retained list is strictly
shorter than the original. -/
theorem c10_remove_frame (tasks : List TodoTask) (targetId : Nat) :
    ((∀ t ∈ tasks, t.id ≠ targetId) → removeTask tasks targetId = (tasks, false)) ∧
    ((removeTask tasks targetId).2 = true ↔ ∃ t ∈ tasks, t.id = targetId) := by
  constructor
  · intro h
    have hfil : tasks.filter (fun t => t.id != targetId) = tasks :=
      List.filter_eq_self.mpr (fun t ht => by simpa using h t ht)
    unfold removeTask
    rw [hfil]
    simp
  · unfold removeTask
    simp only [decide_eq_true_eq]
    constructor
    · intro hlt
      by_contra hno
      push_neg at hno
      have hfil : tasks.filter (fun t => t.id != targetId) = tasks :=
        List.filter_eq_self.mpr (fun t ht => by simpa using hno t ht)
      rw [hfil] at hlt
      omega
    · rintro ⟨t, ht, hid⟩
      have hle := List.length_filter_le (fun t => t.id != targetId) tasks
      rcases Nat.lt_or_ge ((tasks.filter (fun t => t.id != targetId)).length) tasks.length with h | h
      · exact h
      · exfalso
        have heq : (tasks.filter (fun t => t.id != targetId)).length = tasks.length := by omega
        have hfil : tasks.filter (fun t => t.id != targetId) = tasks :=
          List.Sublist.eq_of_length (List.filter_sublist tasks) heq
        have : t ∈ tasks.filter (fun t => t.id != targetId) := hfil.symm ▸ ht
        have := List.of_mem_filter this
        simp [hid] at this

/-- Witness for C10 at concrete lists. -/
theorem c10_witness :
    removeTask w9Tasks 2 = (w9Tasks, false) ∧
    ((removeTask w9Tasks 3).2 = true ↔ ∃ t ∈ w9Tasks, t.id = 3) :=
  ⟨(c10_remove_frame w9Tasks 2).1 (by decide), (c10_remove_frame w9Tasks 3).2⟩
